import Mathlib

/-!
# kick: SSH key-authentication setup

A shallow embedding of `utils/ssh_utils.go` and of the key-entry step of
`cmd/ssh.go`, followed by theorems about the reconciliation of
`sshd_config`, the override-fragment rewrite, the authorized-keys installer,
the restart fallback and the key-prefix check.

Text is modelled as a list of Unicode code points (`Str`); the Go code works
on UTF-8 bytes, and on valid UTF-8 the library functions used here
(`TrimSpace`, `HasPrefix`, `HasSuffix`, `Contains`, `Split`, `Join`,
`Replace`) act on code points exactly as modelled.  File-system calls are
modelled by their effect on the content they read and write.
-/

namespace Kick

/-- Text: a Go string holding valid UTF-8, as its sequence of code points. -/
abbrev Str := List Char

/-! ## The Go `strings`/`unicode` functions the program calls -/

/-- Go `unicode.IsSpace`: the Latin-1 cases and the `White_Space` table. -/
def isSpace (c : Char) : Bool :=
  c = '\t' || c = '\n' || c = '\x0b' || c = '\x0c' || c = '\r' || c = ' ' ||
  c.toNat = 0x85 || c.toNat = 0xA0 || c.toNat = 0x1680 ||
  (0x2000 ≤ c.toNat && c.toNat ≤ 0x200a) || c.toNat = 0x2028 || c.toNat = 0x2029 ||
  c.toNat = 0x202f || c.toNat = 0x205f || c.toNat = 0x3000

/-- Go `strings.TrimSpace`: drop leading and trailing white space. -/
def TrimSpace (s : Str) : Str := (s.dropWhile isSpace).rdropWhile isSpace

/-- Go `strings.HasPrefix`. -/
def HasPrefix (s pre : Str) : Bool := pre.isPrefixOf s

/-- Go `strings.HasSuffix`. -/
def HasSuffix (s suf : Str) : Bool := suf.isSuffixOf s

/-- Go `strings.Contains`: `sub` occurs at some position of `s`. -/
def Contains : Str → Str → Bool
  | [], sub => HasPrefix [] sub
  | c :: cs, sub => HasPrefix (c :: cs) sub || Contains cs sub

/-- Go `strings.Split(s, sep)` for a one-character separator (the program
splits on a newline and on a space only). -/
def Split : Str → Char → List Str
  | [], _ => [[]]
  | c :: cs, sep =>
    if c = sep then [] :: Split cs sep
    else match Split cs sep with
      | [] => [[c]]
      | l :: ls => (c :: l) :: ls

/-- Go `strings.Join(elems, sep)` for a one-character separator. -/
def Join : List Str → Char → Str
  | [], _ => []
  | [l], _ => l
  | l :: l2 :: ls, sep => l ++ sep :: Join (l2 :: ls) sep

/-- The loop of Go `strings.Replace(s, old, new, -1)` for a non-empty `old`:
scan left to right, at each leftmost occurrence of `old` emit `new` and jump
past the occurrence.  `skip` counts the characters of the occurrence just
replaced that are still to be jumped over. -/
def replaceFrom (old new : Str) : Nat → Str → Str
  | _, [] => []
  | skip + 1, _ :: cs => replaceFrom old new skip cs
  | 0, c :: cs =>
    if HasPrefix (c :: cs) old then new ++ replaceFrom old new (old.length - 1) cs
    else c :: replaceFrom old new 0 cs

/-- Go `strings.Replace(s, old, new, -1)` for a non-empty `old`. -/
def Replace (s old new : Str) : Str := replaceFrom old new 0 s

/-! ## `UpdateSSHConfig`: the reconcile step -/

/-- The map literal `configUpdates` of `UpdateSSHConfig`, as its entries. -/
def configUpdates : List (Str × Str) :=
  [ ("PubkeyAuthentication".toList, "yes".toList),
    ("AuthorizedKeysFile".toList, ".ssh/authorized_keys .ssh/authorized_keys2".toList),
    ("PasswordAuthentication".toList, "no".toList),
    ("PermitRootLogin".toList, "prohibit-password".toList),
    ("ClientAliveInterval".toList, "60".toList),
    ("ClientAliveCountMax".toList, "10".toList) ]

/-- The test of the inner loop:
`HasPrefix(trimmedLine, key+" ") || HasPrefix(trimmedLine, key+"\t")`. -/
def matchesKey (trimmedLine key : Str) : Bool :=
  HasPrefix trimmedLine (key ++ [' ']) || HasPrefix trimmedLine (key ++ ['\t'])

/-- The guard of the scan loop: lines whose trimmed text is empty or starts
with `#` are skipped (`continue`); the others are active. -/
def isActive (line : Str) : Bool :=
  !(TrimSpace line = [] || HasPrefix (TrimSpace line) ['#'])

/-- The inner loop `for key, value := range configUpdates { if ... break }`:
the first entry, in the iteration order `order` Go happens to use for this
pass over the map, whose key matches the trimmed line. -/
def firstMatch (order : List (Str × Str)) (trimmedLine : Str) : Option (Str × Str) :=
  order.find? (fun kv => matchesKey trimmedLine kv.1)

/-- One iteration of the scan loop on `line`: the new content of `lines[i]`
and the key set in `updatedConfig`, if any. -/
def scanLine (order : List (Str × Str)) (line : Str) : Str × Option Str :=
  if isActive line then
    match firstMatch order (TrimSpace line) with
    | some (key, value) => (key ++ ' ' :: value, some key)
    | none => (line, none)
  else (line, none)

/-- The scan loop `for i, line := range lines`, from index `i` on: the
rewritten lines and the keys set to `true` in `updatedConfig`.  `orders i` is
the iteration order of the map in the inner loop at line `i` (Go does not fix
the order of a `range` over a map). -/
def scanLoop (orders : Nat → List (Str × Str)) : Nat → List Str → List Str × List Str
  | _, [] => ([], [])
  | i, line :: rest =>
    let r := scanLoop orders (i + 1) rest
    match scanLine (orders i) line with
    | (line', some key) => (line' :: r.1, key :: r.2)
    | (line', none) => (line' :: r.1, r.2)

/-- The second loop, `for key, value := range configUpdates`, in iteration
order `order`: one new line per key not marked in `updatedConfig`. -/
def appendMissing (order : List (Str × Str)) (updatedConfig : List Str) : List Str :=
  (order.filter (fun kv => !(updatedConfig.contains kv.1))).map (fun kv => kv.1 ++ ' ' :: kv.2)

/-- The reconcile step of `UpdateSSHConfig` on the lines of the document:
scan-and-rewrite, then append the missing directives. -/
def reconcileLines (orders : Nat → List (Str × Str)) (appendOrder : List (Str × Str))
    (lines : List Str) : List Str :=
  let r := scanLoop orders 0 lines
  r.1 ++ appendMissing appendOrder r.2

/-- The reconcile step on the text of the file: split on newline, reconcile
the lines, join with newline (the content `UpdateSSHConfig` writes back). -/
def reconcile (orders : Nat → List (Str × Str)) (appendOrder : List (Str × Str))
    (content : Str) : Str :=
  Join (reconcileLines orders appendOrder (Split content '\n')) '\n'

/-! ## `UpdateSSHConfig`: the override fragments -/

/-- The literal searched for in each `*.conf` file of `sshd_config.d`. -/
def insecureLiteral : Str := "PasswordAuthentication yes".toList

/-- The text each occurrence of the literal is replaced with. -/
def commentedLiteral : Str := "#PasswordAuthentication yes # 被 kick 工具禁用".toList

/-- The body of the loop over the `*.conf` files, for one file that was read:
the content passed to `os.WriteFile`, or `none` when the file is not
written. -/
def overrideRewrite (fileContent : Str) : Option Str :=
  if Contains fileContent insecureLiteral then
    some (Replace fileContent insecureLiteral commentedLiteral)
  else none

/-- The content of an override fragment after `UpdateSSHConfig` has
processed it (the write succeeding). -/
def neutralizeFragment (fileContent : Str) : Str :=
  match overrideRewrite fileContent with
  | some newContent => newContent
  | none => fileContent

/-- The files `UpdateSSHConfig` works on: the text of `/etc/ssh/sshd_config`
and, for each regular `*.conf` file of `/etc/ssh/sshd_config.d` that can be
read, its name and text. -/
structure SSHFiles where
  sshdConfig : Str
  fragments : List (Str × Str)

/-- `UpdateSSHConfig` on a run in which every file operation succeeds: each
override fragment holding the literal is rewritten, then the reconciled
document is written back.  (A failed read or write makes the function return
that error instead.) -/
def UpdateSSHConfig (orders : Nat → List (Str × Str)) (appendOrder : List (Str × Str))
    (files : SSHFiles) : SSHFiles :=
  { sshdConfig := reconcile orders appendOrder files.sshdConfig,
    fragments := files.fragments.map (fun f => (f.1, neutralizeFragment f.2)) }

/-! ## `AddPublicKey` -/

/-- What a call of `AddPublicKey` leaves behind: the content of
`~/.ssh/authorized_keys` (`none` while the file does not exist) and whether
the call wrote the file. -/
structure AddResult where
  store : Option Str
  wrote : Bool

/-- The text `AddPublicKey` reads: empty when the file does not exist. -/
def storeContent (store : Option Str) : Str :=
  match store with
  | some content => content
  | none => []

/-- `AddPublicKey` on a run in which every file operation succeeds. -/
def AddPublicKey (store : Option Str) (publicKey : Str) : AddResult :=
  let existingKeys := storeContent store
  if Contains existingKeys publicKey then
    { store := store, wrote := false }
  else
    let existingKeys :=
      if existingKeys ≠ [] ∧ HasSuffix existingKeys ['\n'] = false then existingKeys ++ ['\n']
      else existingKeys
    { store := some (existingKeys ++ (publicKey ++ ['\n'])), wrote := true }

/-- Number of positions of `s` at which `sub` occurs. -/
def countOccurrences (sub : Str) : Str → Nat
  | [] => if HasPrefix [] sub then 1 else 0
  | c :: cs => (if HasPrefix (c :: cs) sub then 1 else 0) + countOccurrences sub cs

/-! ## `RestartSSHService` -/

/-- The candidate command lines, in the order of the source. -/
def restartCommands : List Str :=
  [ "service ssh restart".toList,
    "systemctl restart ssh".toList,
    "systemctl restart sshd".toList,
    "service sshd restart".toList ]

/-- What a call of `RestartSSHService` did: the argument vectors it ran, in
order, and the error it returned (`none` for `nil`), as its message. -/
structure RestartResult where
  attempted : List (List Str)
  err : Option Str

/-- The loop of `RestartSSHService` over the remaining commands.  `run argv`
is `exec.Command(argv[0], argv[1:]...).Run()`: `none` when the command exits
with status zero, else the error's message. -/
def restartLoop (run : List Str → Option Str) : List Str → Option Str → RestartResult
  | [], lastErr =>
    match lastErr with
    | some e => { attempted := [], err := some ("无法重启 SSH 服务: ".toList ++ e) }
    | none => { attempted := [], err := some "无法重启 SSH 服务，请手动重启".toList }
  | cmd :: rest, _ =>
    let parts := Split cmd ' '
    match run parts with
    | none => { attempted := [parts], err := none }
    | some e =>
      let r := restartLoop run rest (some e)
      { attempted := parts :: r.attempted, err := r.err }

/-- `RestartSSHService` with the command runner `run`. -/
def RestartSSHService (run : List Str → Option Str) : RestartResult :=
  restartLoop run restartCommands none

/-! ## `SSHModel.Update` -/

/-- The key types `Update` tells apart. -/
inductive KeyType where
  | ctrlC | esc | enter | other
  deriving DecidableEq

/-- The messages `Update` tells apart. -/
inductive Msg where
  | key (type : KeyType)
  | error (text : Str)
  | sshConfigComplete (status : Str) (success : Bool)
  | other

/-- The commands `Update` returns: `nil`, `tea.Quit`, the batch holding
`performSSHConfig(publicKey)`, or whatever the text input returned. -/
inductive Cmd where
  | nil
  | quit
  | performSSHConfig (publicKey : Str)
  | textInput
  deriving DecidableEq

/-- The part of `textinput.Model` the program reads: `Value()` and
`Focused()`. -/
structure TextInput where
  value : Str
  focused : Bool

/-- The model of the prompt. -/
structure SSHModel where
  textInput : TextInput
  err : Option Str
  done : Bool
  status : Str
  success : Bool

/-- `SSHModel.Update`.  `tiUpdate` is `textinput.Model.Update`, of the
text-input library. -/
def SSHModel.Update (tiUpdate : TextInput → Msg → TextInput) (m : SSHModel) (msg : Msg) :
    SSHModel × Cmd :=
  if m.done then
    match msg with
    | .key type =>
      if type = .ctrlC ∨ type = .esc ∨ type = .enter then (m, .quit) else (m, .nil)
    | .error text =>
      ({ m with err := some text, status := "配置过程中发生错误: ".toList ++ text }, .quit)
    | .sshConfigComplete status success =>
      ({ m with status := status, success := success }, .quit)
    | .other => (m, .nil)
  else
    let fallThrough : SSHModel × Cmd :=
      ({ m with textInput := tiUpdate m.textInput msg }, .textInput)
    match msg with
    | .key .ctrlC => (m, .quit)
    | .key .esc => (m, .quit)
    | .key .enter =>
      if !m.textInput.focused then (m, .quit)
      else
        let publicKey := TrimSpace m.textInput.value
        if publicKey.length > 0 then
          if !HasPrefix publicKey "ssh-rsa".toList &&
              !HasPrefix publicKey "ssh-ed25519".toList &&
              !HasPrefix publicKey "ecdsa-sha2-".toList then
            ({ m with err := some "公钥格式不正确，应该以 ssh-rsa、ssh-ed25519 或 ecdsa-sha2- 开头".toList },
              .nil)
          else
            ({ m with done := true, status := "正在配置 SSH...".toList },
              .performSSHConfig publicKey)
        else fallThrough
    | _ => fallThrough

/-! ## Vocabulary of the statements -/

/-- A directive whose rewritten line `key value` is itself read back as an
active line naming `key`: the key is non-empty, holds no white space and does
not start a comment, and the value is not blank. -/
def WellFormedDirective (kv : Str × Str) : Prop :=
  kv.1 ≠ [] ∧ (∀ c ∈ kv.1, isSpace c = false) ∧ kv.1.head? ≠ some '#' ∧
    ∃ c ∈ kv.2, isSpace c = false

instance (kv : Str × Str) : Decidable (WellFormedDirective kv) := by
  unfold WellFormedDirective; infer_instance

/-- A line names the directive `key`: it is active and its trimmed text
begins with `key` followed by a space or a tab. -/
def namesDirective (line key : Str) : Bool :=
  isActive line && matchesKey (TrimSpace line) key

/-- The line the program writes for a directive: `key + " " + value`. -/
def directiveLine (kv : Str × Str) : Str := kv.1 ++ ' ' :: kv.2

/-- Every occurrence of `old` in `s` is immediately preceded by `hash`. -/
def AllPreceded (hash : Char) (old s : Str) : Prop :=
  ∀ pre post, s = pre ++ old ++ post → ∃ pre', pre = pre' ++ [hash]

/-- The argument vectors of the candidate commands: each command line split
on spaces. -/
def restartArgvs : List (List Str) := restartCommands.map (fun cmd => Split cmd ' ')

/-! ## Lemmas on the string functions -/

theorem HasPrefix_iff (s pre : Str) : HasPrefix s pre = true ↔ pre <+: s := by
  simp [HasPrefix]

theorem dropWhile_append_of_exists {p : Char → Bool} (x y : Str)
    (h : ∃ c ∈ x, p c = false) : (x ++ y).dropWhile p = x.dropWhile p ++ y := by
  induction x with
  | nil => simp at h
  | cons a x ih =>
    by_cases ha : p a = true
    · have hx : ∃ c ∈ x, p c = false := by
        obtain ⟨c, hc, hpc⟩ := h
        rcases List.mem_cons.1 hc with rfl | hc
        · simp [ha] at hpc
        · exact ⟨c, hc, hpc⟩
      simp [List.dropWhile_cons, ha, ih hx]
    · simp [List.dropWhile_cons, ha]

theorem dropWhile_append_of_all {p : Char → Bool} (x y : Str)
    (h : ∀ c ∈ x, p c = true) : (x ++ y).dropWhile p = y.dropWhile p := by
  induction x with
  | nil => rfl
  | cons a x ih =>
    have ha : p a = true := h a (List.mem_cons_self _ _)
    simp [List.dropWhile_cons, ha, ih (fun c hc => h c (List.mem_cons_of_mem _ hc))]

theorem rdropWhile_append_of_exists {p : Char → Bool} (x y : Str)
    (h : ∃ c ∈ y, p c = false) : (x ++ y).rdropWhile p = x ++ y.rdropWhile p := by
  have h' : ∃ c ∈ y.reverse, p c = false := by
    obtain ⟨c, hc, hpc⟩ := h
    exact ⟨c, List.mem_reverse.2 hc, hpc⟩
  simp [List.rdropWhile, dropWhile_append_of_exists _ _ h']

theorem rdropWhile_append_of_all {p : Char → Bool} (x y : Str)
    (h : ∀ c ∈ y, p c = true) : (x ++ y).rdropWhile p = x.rdropWhile p := by
  have h' : ∀ c ∈ y.reverse, p c = true := fun c hc => h c (List.mem_reverse.1 hc)
  simp [List.rdropWhile, dropWhile_append_of_all _ _ h']

/-- Trimming a line made of white space, a word starting with a non-space
character, and a rest holding a non-space character keeps the word and trims
the rest on the right. -/
theorem TrimSpace_lead_word_rest (lead word rest : Str)
    (hlead : ∀ c ∈ lead, isSpace c = true)
    (hword : ∃ a w, word = a :: w ∧ isSpace a = false)
    (hrest : ∃ c ∈ rest, isSpace c = false) :
    TrimSpace (lead ++ (word ++ rest)) = word ++ rest.rdropWhile isSpace := by
  obtain ⟨a, w, rfl, ha⟩ := hword
  unfold TrimSpace
  rw [dropWhile_append_of_all _ _ hlead]
  have : ((a :: w) ++ rest).dropWhile isSpace = (a :: w) ++ rest := by
    simp [List.dropWhile_cons, ha]
  rw [this, rdropWhile_append_of_exists _ _ hrest]

/-! ## Directive sets -/

theorem configUpdates_wellFormed : ∀ kv ∈ configUpdates, WellFormedDirective kv := by
  decide

theorem configUpdates_nodup : (configUpdates.map Prod.fst).Nodup := by
  decide

theorem matchesKey_iff (t key : Str) :
    matchesKey t key = true ↔ ∃ sep, (sep = ' ' ∨ sep = '\t') ∧ key ++ [sep] <+: t := by
  simp only [matchesKey, Bool.or_eq_true, HasPrefix_iff]
  constructor
  · rintro (h | h)
    · exact ⟨' ', Or.inl rfl, h⟩
    · exact ⟨'\t', Or.inr rfl, h⟩
  · rintro ⟨sep, rfl | rfl, h⟩
    · exact Or.inl h
    · exact Or.inr h

theorem prefix_sep_aux (k k' : Str) (s s' : Char) (t : Str)
    (hs : s ∉ k') (h : k ++ [s] <+: t) (h' : k' ++ [s'] <+: t)
    (hle : (k ++ [s]).length ≤ (k' ++ [s']).length) : k = k' := by
  have hp : k ++ [s] <+: k' ++ [s'] := List.prefix_of_prefix_length_le h h' hle
  by_cases hlen : k.length = k'.length
  · have heq : k ++ [s] = k' ++ [s'] :=
      List.IsPrefix.eq_of_length hp (by simp [hlen])
    exact (List.append_inj heq hlen).1
  · exfalso
    have hlt : (k ++ [s]).length ≤ k'.length := by
      simp only [List.length_append, List.length_singleton] at hle ⊢
      omega
    have hp' : k ++ [s] <+: k' :=
      List.prefix_of_prefix_length_le hp (List.prefix_append k' [s']) hlt
    exact hs (hp'.subset (by simp))

/-- A trimmed line matches at most one key, when keys hold no space or tab. -/
theorem matchesKey_unique (t k k' : Str)
    (hk : ∀ c ∈ k, isSpace c = false) (hk' : ∀ c ∈ k', isSpace c = false)
    (h : matchesKey t k = true) (h' : matchesKey t k' = true) : k = k' := by
  obtain ⟨s, hs, hp⟩ := (matchesKey_iff t k).1 h
  obtain ⟨s', hs', hp'⟩ := (matchesKey_iff t k').1 h'
  have hsp : isSpace s = true := by rcases hs with rfl | rfl <;> decide
  have hsp' : isSpace s' = true := by rcases hs' with rfl | rfl <;> decide
  have hn : s ∉ k' := fun hm => by simp [hk' s hm] at hsp
  have hn' : s' ∉ k := fun hm => by simp [hk s' hm] at hsp'
  rcases Nat.le_total (k ++ [s]).length (k' ++ [s']).length with hle | hle
  · exact prefix_sep_aux k k' s s' t hn hp hp' hle
  · exact (prefix_sep_aux k' k s' s t hn' hp' hp hle).symm

theorem eq_of_key_eq {D : List (Str × Str)} (hD : (D.map Prod.fst).Nodup)
    {kv kv' : Str × Str} (h : kv ∈ D) (h' : kv' ∈ D) (hk : kv.1 = kv'.1) : kv = kv' :=
  List.inj_on_of_nodup_map hD h h' hk

theorem firstMatch_none_iff (order : List (Str × Str)) (t : Str) :
    firstMatch order t = none ↔ ∀ kv ∈ order, matchesKey t kv.1 = false := by
  simp [firstMatch, List.find?_eq_none]

theorem firstMatch_some {order : List (Str × Str)} {t : Str} {kv : Str × Str}
    (h : firstMatch order t = some kv) : kv ∈ order ∧ matchesKey t kv.1 = true := by
  unfold firstMatch at h
  exact ⟨List.mem_of_find?_eq_some h, by simpa using List.find?_some h⟩

/-- With well-formed, distinct keys the inner loop finds the one matching
entry whatever the iteration order. -/
theorem firstMatch_eq_of_match {D order : List (Str × Str)} (hperm : order.Perm D)
    (hD : (D.map Prod.fst).Nodup) (hwf : ∀ kv ∈ D, WellFormedDirective kv)
    {t : Str} {kv : Str × Str} (hkv : kv ∈ D) (hm : matchesKey t kv.1 = true) :
    firstMatch order t = some kv := by
  cases hf : firstMatch order t with
  | none =>
    have := (firstMatch_none_iff order t).1 hf kv (hperm.mem_iff.2 hkv)
    simp [hm] at this
  | some kv' =>
    obtain ⟨hmem, hm'⟩ := firstMatch_some hf
    have hmem' : kv' ∈ D := hperm.mem_iff.1 hmem
    have hk : kv'.1 = kv.1 :=
      matchesKey_unique t kv'.1 kv.1 (hwf kv' hmem').2.1 (hwf kv hkv).2.1 hm' hm
    rw [eq_of_key_eq hD hmem' hkv hk]

/-- The line written for a well-formed directive trims to itself up to the
right end of the value. -/
theorem TrimSpace_directiveLine {kv : Str × Str} (hwf : WellFormedDirective kv) :
    TrimSpace (directiveLine kv) = kv.1 ++ ' ' :: kv.2.rdropWhile isSpace := by
  obtain ⟨hne, hsp, _, hv⟩ := hwf
  obtain ⟨a, w, hw⟩ := List.exists_cons_of_ne_nil hne
  have ha : isSpace a = false := hsp a (by simp [hw])
  have hrest : ∃ c ∈ ' ' :: kv.2, isSpace c = false := by
    obtain ⟨c, hc, hpc⟩ := hv
    exact ⟨c, List.mem_cons_of_mem _ hc, hpc⟩
  have h := TrimSpace_lead_word_rest [] kv.1 (' ' :: kv.2) (by simp) ⟨a, w, hw, ha⟩ hrest
  simp only [List.nil_append] at h
  have h2 : (' ' :: kv.2).rdropWhile isSpace = ' ' :: kv.2.rdropWhile isSpace := by
    have := rdropWhile_append_of_exists (p := isSpace) [' '] kv.2 hv
    simpa using this
  rw [directiveLine, h, h2]

theorem isActive_cons {line w : Str} {c : Char}
    (h : TrimSpace line = c :: w) (hc : c ≠ '#') : isActive line = true := by
  have : ('#' == c) = false := by simpa using fun h => hc h.symm
  simp [isActive, h, HasPrefix, List.isPrefixOf, this]

/-- The line written for a well-formed directive is active and names its key. -/
theorem namesDirective_directiveLine {kv : Str × Str} (hwf : WellFormedDirective kv) :
    namesDirective (directiveLine kv) kv.1 = true := by
  have ht := TrimSpace_directiveLine hwf
  obtain ⟨hne, _, hhash, _⟩ := hwf
  obtain ⟨a, w, hw⟩ := List.exists_cons_of_ne_nil hne
  have ha : a ≠ '#' := by
    intro h; apply hhash; simp [hw, h]
  have hact : isActive (directiveLine kv) = true :=
    isActive_cons (w := w ++ ' ' :: kv.2.rdropWhile isSpace) (by rw [ht, hw]; rfl) ha
  have hmatch : matchesKey (TrimSpace (directiveLine kv)) kv.1 = true := by
    rw [matchesKey_iff]
    refine ⟨' ', Or.inl rfl, ?_⟩
    rw [ht]
    exact ⟨kv.2.rdropWhile isSpace, by simp⟩
  simp [namesDirective, hact, hmatch]

/-! ## The scan loop -/

theorem scanLine_cases (order : List (Str × Str)) (line : Str) :
    scanLine order line = (line, none) ∨
    ∃ kv ∈ order, isActive line = true ∧ matchesKey (TrimSpace line) kv.1 = true ∧
      scanLine order line = (directiveLine kv, some kv.1) := by
  unfold scanLine
  by_cases hact : isActive line = true
  · simp only [hact, if_true]
    cases hf : firstMatch order (TrimSpace line) with
    | none => exact Or.inl rfl
    | some kv =>
      obtain ⟨hmem, hm⟩ := firstMatch_some hf
      exact Or.inr ⟨kv, hmem, trivial, hm, rfl⟩
  · simp [hact]

theorem scanLine_skip (order : List (Str × Str)) (line : Str)
    (h : ¬ (isActive line = true ∧ ∃ kv ∈ order, matchesKey (TrimSpace line) kv.1 = true)) :
    scanLine order line = (line, none) := by
  rcases scanLine_cases order line with h1 | ⟨kv, hmem, hact, hm, _⟩
  · exact h1
  · exact absurd ⟨hact, kv, hmem, hm⟩ h

theorem scanLine_match {D order : List (Str × Str)} (hperm : order.Perm D)
    (hD : (D.map Prod.fst).Nodup) (hwf : ∀ kv ∈ D, WellFormedDirective kv)
    {line : Str} {kv : Str × Str} (hkv : kv ∈ D) (hact : isActive line = true)
    (hm : matchesKey (TrimSpace line) kv.1 = true) :
    scanLine order line = (directiveLine kv, some kv.1) := by
  unfold scanLine
  simp only [hact, if_true, firstMatch_eq_of_match hperm hD hwf hkv hm]
  rfl

theorem scanLoop_cons (orders : Nat → List (Str × Str)) (i : Nat) (line : Str)
    (rest : List Str) :
    scanLoop orders i (line :: rest) =
      ((scanLine (orders i) line).1 :: (scanLoop orders (i + 1) rest).1,
       (scanLine (orders i) line).2.toList ++ (scanLoop orders (i + 1) rest).2) := by
  simp only [scanLoop]
  rcases scanLine (orders i) line with ⟨l', _ | k⟩ <;> rfl

theorem scanLoop_fst_length (orders : Nat → List (Str × Str)) (i : Nat) (ls : List Str) :
    (scanLoop orders i ls).1.length = ls.length := by
  induction ls generalizing i with
  | nil => rfl
  | cons l ls ih => simp [scanLoop_cons, ih]

theorem scanLoop_fst_getElem? (orders : Nat → List (Str × Str)) (i : Nat) (ls : List Str)
    (j : Nat) :
    (scanLoop orders i ls).1[j]? = ls[j]?.map (fun l => (scanLine (orders (i + j)) l).1) := by
  induction ls generalizing i j with
  | nil => simp [scanLoop]
  | cons l ls ih =>
    cases j with
    | zero => simp [scanLoop_cons]
    | succ j =>
      simp only [scanLoop_cons, List.getElem?_cons_succ, ih]
      congr 2; funext l; congr 3; omega

theorem mem_scanLoop_snd (orders : Nat → List (Str × Str)) (i : Nat) (ls : List Str)
    (k : Str) :
    k ∈ (scanLoop orders i ls).2 ↔
      ∃ j l, ls[j]? = some l ∧ (scanLine (orders (i + j)) l).2 = some k := by
  induction ls generalizing i with
  | nil => simp [scanLoop]
  | cons l ls ih =>
    simp only [scanLoop_cons, List.mem_append, Option.mem_toList, Option.mem_def, ih]
    constructor
    · rintro (h | ⟨j, l', hj, hk⟩)
      · exact ⟨0, l, by simp, h⟩
      · exact ⟨j + 1, l', by simpa using hj, by rw [← hk]; congr 3; omega⟩
    · rintro ⟨j, l', hj, hk⟩
      cases j with
      | zero =>
        simp only [List.getElem?_cons_zero, Option.some.injEq] at hj
        subst hj; exact Or.inl hk
      | succ j =>
        refine Or.inr ⟨j, l', by simpa using hj, ?_⟩
        rw [← hk]; congr 3; omega

theorem mem_scanLoop_fst (orders : Nat → List (Str × Str)) (i : Nat) (ls : List Str)
    (x : Str) :
    x ∈ (scanLoop orders i ls).1 ↔
      ∃ j l, ls[j]? = some l ∧ (scanLine (orders (i + j)) l).1 = x := by
  rw [List.mem_iff_getElem?]
  constructor
  · rintro ⟨j, hj⟩
    rw [scanLoop_fst_getElem?] at hj
    cases hl : ls[j]? with
    | none => simp [hl] at hj
    | some l => exact ⟨j, l, hl, by simpa [hl] using hj⟩
  · rintro ⟨j, l, hl, hx⟩
    exact ⟨j, by rw [scanLoop_fst_getElem?, hl]; simp [hx]⟩

theorem mem_appendMissing (order : List (Str × Str)) (upd : List Str) (x : Str) :
    x ∈ appendMissing order upd ↔ ∃ kv ∈ order, kv.1 ∉ upd ∧ x = directiveLine kv := by
  simp only [appendMissing, List.mem_map, List.mem_filter, directiveLine]
  constructor
  · rintro ⟨kv, ⟨hmem, hnot⟩, rfl⟩
    exact ⟨kv, hmem, by simpa using hnot, rfl⟩
  · rintro ⟨kv, hmem, hnot, rfl⟩
    exact ⟨kv, ⟨hmem, by simpa using hnot⟩, rfl⟩

/-! ## The reconciled lines -/

theorem reconcileLines_getElem? (orders : Nat → List (Str × Str))
    (appendOrder : List (Str × Str)) (T : List Str) (i : Nat) (line : Str)
    (h : T[i]? = some line) :
    (reconcileLines orders appendOrder T)[i]? = some (scanLine (orders i) line).1 := by
  have hi : i < T.length := by
    rcases Nat.lt_or_ge i T.length with hlt | hge
    · exact hlt
    · rw [List.getElem?_eq_none hge] at h; cases h
  unfold reconcileLines
  simp only
  rw [List.getElem?_append_left (by rw [scanLoop_fst_length]; exact hi),
    scanLoop_fst_getElem?, h]
  simp

theorem reconcileLines_length (orders : Nat → List (Str × Str))
    (appendOrder : List (Str × Str)) (T : List Str) :
    T.length ≤ (reconcileLines orders appendOrder T).length := by
  unfold reconcileLines
  simp [scanLoop_fst_length]

theorem mem_reconcileLines (orders : Nat → List (Str × Str))
    (appendOrder : List (Str × Str)) (T : List Str) (x : Str) :
    x ∈ reconcileLines orders appendOrder T ↔
      (∃ j l, T[j]? = some l ∧ (scanLine (orders j) l).1 = x) ∨
      ∃ kv ∈ appendOrder, kv.1 ∉ (scanLoop orders 0 T).2 ∧ x = directiveLine kv := by
  unfold reconcileLines
  simp only [List.mem_append, mem_scanLoop_fst, mem_appendMissing, Nat.zero_add]

/-- C2: the reconcile step keeps, at its original index, every line of the
document that is blank, a comment, or begins with no required directive name
followed by a space or tab; the output is at least as long as the document,
so whatever is added comes after the last original index. -/
theorem reconcileLines_frame (D : List (Str × Str)) (orders : Nat → List (Str × Str))
    (appendOrder : List (Str × Str)) (T : List Str)
    (horders : ∀ i, (orders i).Perm D) :
    T.length ≤ (reconcileLines orders appendOrder T).length ∧
    (∀ x ∈ (reconcileLines orders appendOrder T).drop T.length,
      x ∈ appendMissing appendOrder (scanLoop orders 0 T).2) ∧
    ∀ (i : Nat) (line : Str), T[i]? = some line →
      (TrimSpace line = [] ∨ HasPrefix (TrimSpace line) ['#'] = true ∨
        ∀ kv ∈ D, matchesKey (TrimSpace line) kv.1 = false) →
      (reconcileLines orders appendOrder T)[i]? = some line := by
  refine ⟨reconcileLines_length orders appendOrder T, ?_, ?_⟩
  · intro x hx
    have hlen : T.length = (scanLoop orders 0 T).1.length := (scanLoop_fst_length _ _ _).symm
    unfold reconcileLines at hx
    simp only at hx
    rw [hlen, List.drop_left] at hx
    exact hx
  · intro i line hline hkeep
    rw [reconcileLines_getElem? orders appendOrder T i line hline]
    rw [scanLine_skip]
    rintro ⟨hact, kv, hmem, hm⟩
    rcases hkeep with h | h | h
    · simp [isActive, h] at hact
    · simp [isActive, h] at hact
    · have := h kv ((horders i).mem_iff.1 hmem)
      simp [hm] at this

/-- Witness of C2 on a document holding a comment, a blank line, an unrelated
setting and a directive line. -/
theorem reconcileLines_frame_witness :
    (∀ i : Nat, ((fun _ => configUpdates) i : List (Str × Str)).Perm configUpdates) ∧
    (let T : List Str := ["# sshd".toList, [], "Port 22".toList, "PasswordAuthentication yes".toList]
     T.length ≤ (reconcileLines (fun _ => configUpdates) configUpdates T).length ∧
     (∀ x ∈ (reconcileLines (fun _ => configUpdates) configUpdates T).drop T.length,
       x ∈ appendMissing configUpdates (scanLoop (fun _ => configUpdates) 0 T).2) ∧
     ∀ (i : Nat) (line : Str), T[i]? = some line →
       (TrimSpace line = [] ∨ HasPrefix (TrimSpace line) ['#'] = true ∨
         ∀ kv ∈ configUpdates, matchesKey (TrimSpace line) kv.1 = false) →
       (reconcileLines (fun _ => configUpdates) configUpdates T)[i]? = some line) :=
  ⟨fun _ => List.Perm.refl _,
   reconcileLines_frame configUpdates (fun _ => configUpdates) configUpdates _
     (fun _ => List.Perm.refl _)⟩

/-- C9 (as the code behaves): every active line that begins with a required
directive name followed by a space or tab is rewritten to `name value`, at
its own index, whether it is the first such line for the directive or a later
one. -/
theorem reconcileLines_rewrites_every_match (orders : Nat → List (Str × Str))
    (appendOrder : List (Str × Str)) (T : List Str) (i : Nat) (line : Str)
    (kv : Str × Str)
    (horders : ∀ j, (orders j).Perm configUpdates)
    (hline : T[i]? = some line) (hkv : kv ∈ configUpdates)
    (hnames : namesDirective line kv.1 = true) :
    (reconcileLines orders appendOrder T)[i]? = some (kv.1 ++ ' ' :: kv.2) := by
  simp only [namesDirective, Bool.and_eq_true] at hnames
  rw [reconcileLines_getElem? orders appendOrder T i line hline,
    scanLine_match (horders i) configUpdates_nodup configUpdates_wellFormed hkv
      hnames.1 hnames.2]
  rfl

/-- Witness of C9: the second of two `PasswordAuthentication` lines is
rewritten too. -/
theorem reconcileLines_rewrites_every_match_witness :
    (reconcileLines (fun _ => configUpdates) configUpdates
      ["PasswordAuthentication no".toList, "PasswordAuthentication yes".toList])[1]? =
      some ("PasswordAuthentication".toList ++ ' ' :: "no".toList) :=
  reconcileLines_rewrites_every_match (fun _ => configUpdates) configUpdates
    ["PasswordAuthentication no".toList, "PasswordAuthentication yes".toList] 1
    "PasswordAuthentication yes".toList ("PasswordAuthentication".toList, "no".toList)
    (fun _ => List.Perm.refl _) (by decide) (by decide) (by decide)

/-- C9 as stated fails: a later line for an already satisfied directive is
not left untouched. -/
theorem later_match_not_untouched :
    (reconcileLines (fun _ => configUpdates) configUpdates
      ["PasswordAuthentication no".toList, "PasswordAuthentication yes".toList])[1]? ≠
      some "PasswordAuthentication yes".toList := by
  decide

/-- C10 (as the code behaves): a line made of leading white space,
`PasswordAuthentication`, a space or tab, a value holding a non-space
character, and any trailing text (white space included), is replaced at its
index by exactly `PasswordAuthentication no`. -/
theorem reconcileLines_passwordAuthentication (orders : Nat → List (Str × Str))
    (appendOrder : List (Str × Str)) (T : List Str) (i : Nat)
    (lead value trail : Str) (sep : Char)
    (horders : ∀ j, (orders j).Perm configUpdates)
    (hlead : ∀ c ∈ lead, isSpace c = true)
    (hsep : sep = ' ' ∨ sep = '\t') (hvalue : ∃ c ∈ value, isSpace c = false)
    (hline : T[i]? = some (lead ++ "PasswordAuthentication".toList ++ sep :: value ++ trail)) :
    (reconcileLines orders appendOrder T)[i]? = some "PasswordAuthentication no".toList := by
  have hrest : ∃ c ∈ sep :: (value ++ trail), isSpace c = false := by
    obtain ⟨c, hc, hpc⟩ := hvalue
    exact ⟨c, by simp [hc], hpc⟩
  have htrim := TrimSpace_lead_word_rest lead "PasswordAuthentication".toList
    (sep :: (value ++ trail)) hlead ⟨'P', "asswordAuthentication".toList, rfl, by decide⟩ hrest
  have hsplit : (sep :: (value ++ trail)).rdropWhile isSpace
      = sep :: (value ++ trail).rdropWhile isSpace := by
    have hvt : ∃ c ∈ value ++ trail, isSpace c = false := by
      obtain ⟨c, hc, hpc⟩ := hvalue
      exact ⟨c, by simp [hc], hpc⟩
    simpa using rdropWhile_append_of_exists (p := isSpace) [sep] (value ++ trail) hvt
  have hline' : lead ++ "PasswordAuthentication".toList ++ sep :: value ++ trail
      = lead ++ ("PasswordAuthentication".toList ++ sep :: (value ++ trail)) := by
    simp
  rw [hsplit] at htrim
  rw [hline'] at hline
  have hact : isActive (lead ++ ("PasswordAuthentication".toList ++ sep :: (value ++ trail)))
      = true :=
    isActive_cons (c := 'P')
      (w := "asswordAuthentication".toList ++ sep :: (value ++ trail).rdropWhile isSpace)
      (by rw [htrim]; rfl) (by decide)
  have hm : matchesKey
      (TrimSpace (lead ++ ("PasswordAuthentication".toList ++ sep :: (value ++ trail))))
      "PasswordAuthentication".toList = true := by
    rw [matchesKey_iff, htrim]
    exact ⟨sep, hsep, (value ++ trail).rdropWhile isSpace, by simp⟩
  have hkv : ("PasswordAuthentication".toList, "no".toList) ∈ configUpdates := by decide
  rw [reconcileLines_getElem? orders appendOrder T i _ hline,
    scanLine_match (horders i) configUpdates_nodup configUpdates_wellFormed hkv hact hm]
  rfl

/-- Witness of C10 on an indented, tab-separated line with a trailing space. -/
theorem reconcileLines_passwordAuthentication_witness :
    (reconcileLines (fun _ => configUpdates) configUpdates
      ["Port 22".toList, "   PasswordAuthentication\tyes ".toList])[1]? =
      some "PasswordAuthentication no".toList :=
  reconcileLines_passwordAuthentication (fun _ => configUpdates) configUpdates
    ["Port 22".toList, "   PasswordAuthentication\tyes ".toList] 1
    "   ".toList "yes".toList " ".toList '\t'
    (fun _ => List.Perm.refl _) (by decide) (by decide) (by decide) (by decide)

/-- C10 as stated fails for a blank value: the line `PasswordAuthentication `
(the name, a space, an empty value) trims to the bare name, matches no
directive and is kept as it is; the directive is appended instead. -/
theorem blank_value_line_not_rewritten :
    (reconcileLines (fun _ => configUpdates) configUpdates
      ["PasswordAuthentication ".toList])[0]? ≠ some "PasswordAuthentication no".toList ∧
    (reconcileLines (fun _ => configUpdates) configUpdates
      ["PasswordAuthentication ".toList])[0]? = some "PasswordAuthentication ".toList ∧
    "PasswordAuthentication no".toList ∈
      (reconcileLines (fun _ => configUpdates) configUpdates
        ["PasswordAuthentication ".toList]).drop 1 := by
  decide

theorem directiveLine_names_unique {D : List (Str × Str)} (hD : (D.map Prod.fst).Nodup)
    (hwf : ∀ kv ∈ D, WellFormedDirective kv) {kv kv' : Str × Str} (hkv : kv ∈ D)
    (hkv' : kv' ∈ D) (h : namesDirective (directiveLine kv') kv.1 = true) : kv' = kv := by
  have h' := namesDirective_directiveLine (hwf kv' hkv')
  simp only [namesDirective, Bool.and_eq_true] at h h'
  exact eq_of_key_eq hD hkv' hkv
    (matchesKey_unique _ kv'.1 kv.1 (hwf kv' hkv').2.1 (hwf kv hkv).2.1 h'.2 h.2)

/-- Each directive of a well-formed set is named by some active line of the
reconciled document, and only by lines equal to `name value`. -/
theorem every_directive_named (D : List (Str × Str))
    (orders : Nat → List (Str × Str)) (appendOrder : List (Str × Str)) (T : List Str)
    (kv : Str × Str)
    (hD : (D.map Prod.fst).Nodup) (hwf : ∀ d ∈ D, WellFormedDirective d)
    (horders : ∀ i, (orders i).Perm D) (happend : appendOrder.Perm D) (hkv : kv ∈ D) :
    (∃ l ∈ reconcileLines orders appendOrder T, namesDirective l kv.1 = true) ∧
    ∀ l ∈ reconcileLines orders appendOrder T, namesDirective l kv.1 = true →
      l = kv.1 ++ ' ' :: kv.2 := by
  constructor
  · refine ⟨directiveLine kv, ?_, namesDirective_directiveLine (hwf kv hkv)⟩
    rw [mem_reconcileLines]
    by_cases hupd : kv.1 ∈ (scanLoop orders 0 T).2
    · left
      obtain ⟨j, l, hl, hk⟩ := (mem_scanLoop_snd orders 0 T kv.1).1 hupd
      rw [Nat.zero_add] at hk
      refine ⟨j, l, hl, ?_⟩
      rcases scanLine_cases (orders j) l with h0 | ⟨kv', hmem, _, _, h1⟩
      · rw [h0] at hk; cases hk
      · rw [h1] at hk
        have hk' : kv'.1 = kv.1 := by simpa using hk
        rw [h1, eq_of_key_eq hD ((horders j).mem_iff.1 hmem) hkv hk']
    · right
      exact ⟨kv, happend.mem_iff.2 hkv, hupd, rfl⟩
  · intro l hl hnames
    rw [mem_reconcileLines] at hl
    rcases hl with ⟨j, l0, _, hx⟩ | ⟨kv', hmem, _, rfl⟩
    · rcases scanLine_cases (orders j) l0 with h0 | ⟨kv', hmem, _, _, h1⟩
      · rw [h0] at hx
        simp only at hx
        subst hx
        have hn := hnames
        simp only [namesDirective, Bool.and_eq_true] at hn
        have := scanLine_match (horders j) hD hwf hkv hn.1 hn.2
        rw [h0] at this
        cases this
      · rw [h1] at hx
        simp only at hx
        subst hx
        rw [directiveLine_names_unique hD hwf hkv ((horders j).mem_iff.1 hmem) hnames]
        rfl
    · rw [directiveLine_names_unique hD hwf hkv (happend.mem_iff.1 hmem) hnames]
      rfl

theorem reconcileLines_def (orders : Nat → List (Str × Str)) (appendOrder : List (Str × Str))
    (T : List Str) :
    reconcileLines orders appendOrder T =
      (scanLoop orders 0 T).1 ++ appendMissing appendOrder (scanLoop orders 0 T).2 := rfl

theorem countP_eq_one_of_nodup {l : List (Str × Str)} {a : Str × Str} (hn : l.Nodup)
    (ha : a ∈ l) : l.countP (fun d => decide (d = a)) = 1 := by
  induction l with
  | nil => cases ha
  | cons b l ih =>
    rw [List.nodup_cons] at hn
    rw [List.countP_cons]
    rcases List.mem_cons.1 ha with rfl | hmem
    · have : l.countP (fun d => decide (d = a)) = 0 := by
        rw [List.countP_eq_zero]
        intro d hd
        simpa using fun e : d = a => hn.1 (e ▸ hd)
      simp [this]
    · have hb : b ≠ a := fun e => hn.1 (e ▸ hmem)
      simp [ih hn.2 hmem, hb]

/-- A scanned line names a directive exactly when the line it came from
does. -/
theorem namesDirective_scanLine {D order : List (Str × Str)} (hperm : order.Perm D)
    (hD : (D.map Prod.fst).Nodup) (hwf : ∀ d ∈ D, WellFormedDirective d)
    {kv : Str × Str} (hkv : kv ∈ D) (l : Str) :
    namesDirective (scanLine order l).1 kv.1 = namesDirective l kv.1 := by
  by_cases hn : namesDirective l kv.1 = true
  · have hn' := hn
    simp only [namesDirective, Bool.and_eq_true] at hn'
    rw [scanLine_match hperm hD hwf hkv hn'.1 hn'.2, hn]
    exact namesDirective_directiveLine (hwf kv hkv)
  · rcases scanLine_cases order l with h0 | ⟨kv', hmem, hact, hm, h1⟩
    · rw [h0]
    · rw [h1]
      simp only
      cases hd : namesDirective (directiveLine kv') kv.1 with
      | false => simpa using hn
      | true =>
        have := directiveLine_names_unique hD hwf hkv (hperm.mem_iff.1 hmem) hd
        subst this
        exact absurd (by simp [namesDirective, hact, hm]) hn

/-- The scan marks a key in `updatedConfig` exactly on a line naming it. -/
theorem scanLine_snd_iff {D order : List (Str × Str)} (hperm : order.Perm D)
    (hD : (D.map Prod.fst).Nodup) (hwf : ∀ d ∈ D, WellFormedDirective d)
    {kv : Str × Str} (hkv : kv ∈ D) (l : Str) :
    (scanLine order l).2 = some kv.1 ↔ namesDirective l kv.1 = true := by
  constructor
  · intro h
    rcases scanLine_cases order l with h0 | ⟨kv', hmem, hact, hm, h1⟩
    · rw [h0] at h; cases h
    · rw [h1] at h
      have hk : kv'.1 = kv.1 := by simpa using h
      rw [hk] at hm
      simp [namesDirective, hact, hm]
  · intro hn
    simp only [namesDirective, Bool.and_eq_true] at hn
    rw [scanLine_match hperm hD hwf hkv hn.1 hn.2]

theorem countP_scanLoop {D : List (Str × Str)} (orders : Nat → List (Str × Str))
    (horders : ∀ i, (orders i).Perm D)
    (hD : (D.map Prod.fst).Nodup) (hwf : ∀ d ∈ D, WellFormedDirective d)
    {kv : Str × Str} (hkv : kv ∈ D) (i : Nat) (T : List Str) :
    (scanLoop orders i T).1.countP (fun l => namesDirective l kv.1) =
      T.countP (fun l => namesDirective l kv.1) := by
  induction T generalizing i with
  | nil => rfl
  | cons l T ih =>
    rw [scanLoop_cons]
    simp only [List.countP_cons, ih (i + 1),
      namesDirective_scanLine (horders i) hD hwf hkv l]

theorem mem_updatedConfig_iff {D : List (Str × Str)} (orders : Nat → List (Str × Str))
    (horders : ∀ i, (orders i).Perm D)
    (hD : (D.map Prod.fst).Nodup) (hwf : ∀ d ∈ D, WellFormedDirective d)
    {kv : Str × Str} (hkv : kv ∈ D) (T : List Str) :
    kv.1 ∈ (scanLoop orders 0 T).2 ↔ 0 < T.countP (fun l => namesDirective l kv.1) := by
  rw [mem_scanLoop_snd, List.countP_pos_iff]
  constructor
  · rintro ⟨j, l, hl, hs⟩
    exact ⟨l, List.mem_iff_getElem?.2 ⟨j, hl⟩,
      (scanLine_snd_iff (horders (0 + j)) hD hwf hkv l).1 hs⟩
  · rintro ⟨l, hl, hn⟩
    obtain ⟨j, hj⟩ := List.mem_iff_getElem?.1 hl
    exact ⟨j, l, hj, (scanLine_snd_iff (horders (0 + j)) hD hwf hkv l).2 hn⟩

/-- Among the appended lines, one names a directive when its key was not
marked, none when it was. -/
theorem countP_appendMissing {D order : List (Str × Str)} (hperm : order.Perm D)
    (hD : (D.map Prod.fst).Nodup) (hwf : ∀ d ∈ D, WellFormedDirective d)
    {kv : Str × Str} (hkv : kv ∈ D) (upd : List Str) :
    (appendMissing order upd).countP (fun l => namesDirective l kv.1) =
      if kv.1 ∈ upd then 0 else 1 := by
  have hnodup : order.Nodup := hperm.nodup_iff.2 (List.Nodup.of_map _ hD)
  have hmem : kv ∈ order := hperm.mem_iff.2 hkv
  have hcongr : ∀ d ∈ order,
      (((fun l => namesDirective l kv.1) ∘ fun d : Str × Str => d.1 ++ ' ' :: d.2) d = true ∧
          (!(upd.contains d.1)) = true) ↔
        (decide (d = kv) && !(upd.contains kv.1)) = true := by
    intro d hd
    have hdD : d ∈ D := hperm.mem_iff.1 hd
    simp only [Function.comp, Bool.and_eq_true, decide_eq_true_eq]
    constructor
    · rintro ⟨hn, hu⟩
      have := directiveLine_names_unique hD hwf hkv hdD hn
      subst this
      exact ⟨rfl, hu⟩
    · rintro ⟨rfl, hu⟩
      exact ⟨namesDirective_directiveLine (hwf d hdD), hu⟩
  unfold appendMissing
  rw [List.countP_map, List.countP_filter]
  rw [List.countP_congr (p := fun d => ((fun l => namesDirective l kv.1) ∘
      fun d : Str × Str => d.1 ++ ' ' :: d.2) d && !(upd.contains d.1))
    (q := fun d => decide (d = kv) && !(upd.contains kv.1)) (by
      intro d hd
      simpa only [Bool.and_eq_true] using hcongr d hd)]
  by_cases hu : kv.1 ∈ upd
  · have hc : upd.contains kv.1 = true := by simpa using hu
    simp [hu, hc]
  · have hc : upd.contains kv.1 = false := by simpa using hu
    simp only [hu, if_false, hc, Bool.not_false, Bool.and_true]
    exact countP_eq_one_of_nodup hnodup hmem

/-- C1 (as the code behaves): for a directive set with distinct, well-formed
names, the number of active lines of the reconciled document naming a
directive is the number of such lines in the original document, or one when
the original has none; so it is exactly one unless the original already
names the directive more than once.  Each of these lines is exactly
`name value` with the required value. -/
theorem reconcileLines_every_directive (D : List (Str × Str))
    (orders : Nat → List (Str × Str)) (appendOrder : List (Str × Str)) (T : List Str)
    (kv : Str × Str)
    (hD : (D.map Prod.fst).Nodup) (hwf : ∀ d ∈ D, WellFormedDirective d)
    (horders : ∀ i, (orders i).Perm D) (happend : appendOrder.Perm D) (hkv : kv ∈ D) :
    ((reconcileLines orders appendOrder T).filter (fun l => namesDirective l kv.1)).length =
      max 1 (T.filter (fun l => namesDirective l kv.1)).length ∧
    (∃ l ∈ reconcileLines orders appendOrder T, namesDirective l kv.1 = true) ∧
    ∀ l ∈ reconcileLines orders appendOrder T, namesDirective l kv.1 = true →
      l = kv.1 ++ ' ' :: kv.2 := by
  refine ⟨?_, every_directive_named D orders appendOrder T kv hD hwf horders happend hkv⟩
  rw [← List.countP_eq_length_filter, ← List.countP_eq_length_filter, reconcileLines_def,
    List.countP_append, countP_scanLoop orders horders hD hwf hkv 0 T,
    countP_appendMissing happend hD hwf hkv]
  have hiff := mem_updatedConfig_iff orders horders hD hwf hkv T
  by_cases hu : kv.1 ∈ (scanLoop orders 0 T).2
  · have := hiff.1 hu
    rw [if_pos hu, Nat.add_zero, Nat.max_eq_right this]
  · have : T.countP (fun l => namesDirective l kv.1) = 0 :=
      Nat.eq_zero_of_not_pos (fun h => hu (hiff.2 h))
    rw [if_neg hu, this]
    rfl

/-- Witness of C1 on the program's directive set and a document that sets
`PasswordAuthentication` once, indented: exactly one line names it after the
reconcile step. -/
theorem reconcileLines_every_directive_witness :
    ((reconcileLines (fun _ => configUpdates) configUpdates
        ["Port 22".toList, "  PasswordAuthentication yes".toList]).filter
      (fun l => namesDirective l "PasswordAuthentication".toList)).length =
      max 1 (["Port 22".toList, "  PasswordAuthentication yes".toList].filter
        (fun l => namesDirective l "PasswordAuthentication".toList)).length ∧
    (∃ l ∈ reconcileLines (fun _ => configUpdates) configUpdates
        ["Port 22".toList, "  PasswordAuthentication yes".toList],
      namesDirective l "PasswordAuthentication".toList = true) ∧
    ∀ l ∈ reconcileLines (fun _ => configUpdates) configUpdates
        ["Port 22".toList, "  PasswordAuthentication yes".toList],
      namesDirective l "PasswordAuthentication".toList = true →
        l = "PasswordAuthentication".toList ++ ' ' :: "no".toList :=
  reconcileLines_every_directive configUpdates (fun _ => configUpdates) configUpdates
    ["Port 22".toList, "  PasswordAuthentication yes".toList]
    ("PasswordAuthentication".toList, "no".toList)
    configUpdates_nodup configUpdates_wellFormed (fun _ => List.Perm.refl _)
    (List.Perm.refl _) (by decide)

/-- C1 as stated fails: a document that sets `PasswordAuthentication` twice
is reconciled to one with two active lines naming that directive, not one. -/
theorem two_active_lines_for_one_directive :
    ((reconcileLines (fun _ => configUpdates) configUpdates
      ["PasswordAuthentication yes".toList, "PasswordAuthentication yes".toList]).filter
      (fun l => namesDirective l "PasswordAuthentication".toList)).length ≠ 1 := by
  decide

/-- Why the names must be well formed: for the one-entry directive set
`#X` := `1` the appended line `#X 1` is a comment, so no active line names
the directive. -/
theorem comment_like_name_never_active :
    ∀ l ∈ reconcileLines (fun _ => [("#X".toList, "1".toList)]) [("#X".toList, "1".toList)] [[]],
      namesDirective l "#X".toList = false := by
  decide

/-! ## Splitting and joining -/

theorem Split_ne_nil (s : Str) (sep : Char) : Split s sep ≠ [] := by
  induction s with
  | nil => simp [Split]
  | cons c cs ih =>
    unfold Split
    split
    · simp
    · split <;> simp

theorem Split_no_sep (s : Str) (sep : Char) : ∀ l ∈ Split s sep, sep ∉ l := by
  induction s with
  | nil => simp [Split]
  | cons c cs ih =>
    unfold Split
    by_cases hc : c = sep
    · simp only [hc, if_true, List.mem_cons]
      rintro l (rfl | hl)
      · simp
      · exact ih l hl
    · simp only [hc, if_false]
      cases hs : Split cs sep with
      | nil => exact absurd hs (Split_ne_nil cs sep)
      | cons l0 ls =>
        rw [hs] at ih
        simp only [List.mem_cons]
        rintro l (rfl | hl)
        · have := ih l0 (List.mem_cons_self _ _)
          simp only [List.mem_cons, not_or]
          exact ⟨fun h => hc h.symm, this⟩
        · exact ih l (List.mem_cons_of_mem _ hl)

theorem Split_append_sep (l s : Str) (sep : Char) (h : sep ∉ l) :
    Split (l ++ sep :: s) sep = l :: Split s sep := by
  induction l with
  | nil => simp [Split]
  | cons c l ih =>
    have hc : c ≠ sep := fun e => h (by simp [e])
    have hl : sep ∉ l := fun e => h (List.mem_cons_of_mem _ e)
    have : Split (c :: (l ++ sep :: s)) sep = (c :: l) :: Split s sep := by
      rw [Split, if_neg hc, ih hl]
    simpa using this

theorem Split_of_not_mem (l : Str) (sep : Char) (h : sep ∉ l) : Split l sep = [l] := by
  induction l with
  | nil => rfl
  | cons c l ih =>
    have hc : c ≠ sep := fun e => h (by simp [e])
    have hl : sep ∉ l := fun e => h (List.mem_cons_of_mem _ e)
    simp only [Split, hc, if_false, ih hl]

/-- Joining lines that hold no separator and splitting again gives the lines
back. -/
theorem Split_Join (ls : List Str) (sep : Char) (hne : ls ≠ [])
    (h : ∀ l ∈ ls, sep ∉ l) : Split (Join ls sep) sep = ls := by
  induction ls with
  | nil => exact absurd rfl hne
  | cons l rest ih =>
    cases rest with
    | nil => simpa [Join] using Split_of_not_mem l sep (h l (List.mem_cons_self _ _))
    | cons l2 rest =>
      simp only [Join]
      rw [Split_append_sep l _ sep (h l (List.mem_cons_self _ _)),
        ih (by simp) (fun x hx => h x (List.mem_cons_of_mem _ hx))]

/-! ## Idempotence of the reconcile step -/

theorem scanLoop_fst_eq_self (orders : Nat → List (Str × Str)) (i : Nat) (ls : List Str)
    (h : ∀ x ∈ ls, ∀ j, (scanLine (orders j) x).1 = x) : (scanLoop orders i ls).1 = ls := by
  induction ls generalizing i with
  | nil => rfl
  | cons l ls ih =>
    rw [scanLoop_cons]
    simp only
    rw [h l (List.mem_cons_self _ _) i, ih (i + 1) (fun x hx => h x (List.mem_cons_of_mem _ hx))]

theorem appendMissing_eq_nil (order : List (Str × Str)) (upd : List Str)
    (h : ∀ kv ∈ order, kv.1 ∈ upd) : appendMissing order upd = [] := by
  simp only [appendMissing, List.map_eq_nil_iff, List.filter_eq_nil_iff]
  intro kv hkv
  simpa using h kv hkv

/-- A line the first pass produced is rewritten to itself by any later pass. -/
theorem scanLine_stable {D : List (Str × Str)} (hD : (D.map Prod.fst).Nodup)
    (hwf : ∀ d ∈ D, WellFormedDirective d) {o1 o2 : List (Str × Str)}
    (h1 : o1.Perm D) (h2 : o2.Perm D) (l : Str) :
    (scanLine o2 (scanLine o1 l).1).1 = (scanLine o1 l).1 := by
  rcases scanLine_cases o1 l with h0 | ⟨kv, hmem, _, _, hr⟩
  · rw [h0]
    simp only
    rcases scanLine_cases o2 l with h0' | ⟨kv', hmem', hact, hm, _⟩
    · rw [h0']
    · have := scanLine_match h1 hD hwf (h2.mem_iff.1 hmem') hact hm
      rw [h0] at this
      cases this
  · rw [hr]
    simp only
    have hkv : kv ∈ D := h1.mem_iff.1 hmem
    have hn := namesDirective_directiveLine (hwf kv hkv)
    simp only [namesDirective, Bool.and_eq_true] at hn
    rw [scanLine_match h2 hD hwf hkv hn.1 hn.2]

/-- The reconciled lines are a fixed point of the reconcile step, whatever
iteration orders the two runs use. -/
theorem reconcileLines_idempotent (D : List (Str × Str)) (hD : (D.map Prod.fst).Nodup)
    (hwf : ∀ d ∈ D, WellFormedDirective d)
    (o1 o2 : Nat → List (Str × Str)) (a1 a2 : List (Str × Str))
    (ho1 : ∀ i, (o1 i).Perm D) (ho2 : ∀ i, (o2 i).Perm D)
    (ha1 : a1.Perm D) (ha2 : a2.Perm D) (T : List Str) :
    reconcileLines o2 a2 (reconcileLines o1 a1 T) = reconcileLines o1 a1 T := by
  have hstable : ∀ x ∈ reconcileLines o1 a1 T, ∀ j, (scanLine (o2 j) x).1 = x := by
    intro x hx j
    rw [mem_reconcileLines] at hx
    rcases hx with ⟨i, l, _, rfl⟩ | ⟨kv, hmem, _, rfl⟩
    · exact scanLine_stable hD hwf (ho1 i) (ho2 j) l
    · have hkv : kv ∈ D := ha1.mem_iff.1 hmem
      have hn := namesDirective_directiveLine (hwf kv hkv)
      simp only [namesDirective, Bool.and_eq_true] at hn
      rw [scanLine_match (ho2 j) hD hwf hkv hn.1 hn.2]
  have hall : ∀ kv ∈ a2, kv.1 ∈ (scanLoop o2 0 (reconcileLines o1 a1 T)).2 := by
    intro kv hmem
    have hkv : kv ∈ D := ha2.mem_iff.1 hmem
    obtain ⟨⟨l, hl, hnames⟩, hall⟩ :=
      every_directive_named D o1 a1 T kv hD hwf ho1 ha1 hkv
    obtain ⟨j, hj⟩ := List.mem_iff_getElem?.1 hl
    rw [mem_scanLoop_snd]
    refine ⟨j, l, hj, ?_⟩
    simp only [namesDirective, Bool.and_eq_true] at hnames
    rw [Nat.zero_add, scanLine_match (ho2 j) hD hwf hkv hnames.1 hnames.2]
  rw [reconcileLines_def o2 a2, scanLoop_fst_eq_self o2 0 _ hstable, appendMissing_eq_nil a2 _ hall, List.append_nil]

theorem configUpdates_no_newline : ∀ kv ∈ configUpdates, '\n' ∉ directiveLine kv := by
  decide

theorem reconcileLines_no_newline (orders : Nat → List (Str × Str))
    (appendOrder : List (Str × Str)) (horders : ∀ i, (orders i).Perm configUpdates)
    (happend : appendOrder.Perm configUpdates) (T : List Str) (hT : ∀ l ∈ T, '\n' ∉ l) :
    ∀ l ∈ reconcileLines orders appendOrder T, '\n' ∉ l := by
  intro l hl
  rw [mem_reconcileLines] at hl
  rcases hl with ⟨j, l0, hj, rfl⟩ | ⟨kv, hmem, _, rfl⟩
  · rcases scanLine_cases (orders j) l0 with h0 | ⟨kv, hmem, _, _, h1⟩
    · rw [h0]
      exact hT l0 (List.mem_iff_getElem?.2 ⟨j, hj⟩)
    · rw [h1]
      exact configUpdates_no_newline kv ((horders j).mem_iff.1 hmem)
  · exact configUpdates_no_newline kv (happend.mem_iff.1 hmem)

/-- C3: on the text of the file, reconciling with the program's six
directives is idempotent, whatever order Go iterates the map in on either
run. -/
theorem reconcile_idempotent (o1 o2 : Nat → List (Str × Str)) (a1 a2 : List (Str × Str))
    (T : Str)
    (ho1 : ∀ i, (o1 i).Perm configUpdates) (ho2 : ∀ i, (o2 i).Perm configUpdates)
    (ha1 : a1.Perm configUpdates) (ha2 : a2.Perm configUpdates) :
    reconcile o2 a2 (reconcile o1 a1 T) = reconcile o1 a1 T := by
  have hne : reconcileLines o1 a1 (Split T '\n') ≠ [] := by
    intro h
    have hlen := reconcileLines_length o1 a1 (Split T '\n')
    rw [h] at hlen
    exact Split_ne_nil T '\n' (List.length_eq_zero.1 (Nat.le_zero.1 hlen))
  have hnl := reconcileLines_no_newline o1 a1 ho1 ha1 (Split T '\n') (Split_no_sep T '\n')
  unfold reconcile
  rw [Split_Join _ '\n' hne hnl,
    reconcileLines_idempotent configUpdates configUpdates_nodup configUpdates_wellFormed
      o1 o2 a1 a2 ho1 ho2 ha1 ha2]

/-- Witness of C3 on a text that ends with a newline and lacks five of the
six directives, with a different append order on the second run. -/
theorem reconcile_idempotent_witness :
    reconcile (fun _ => configUpdates) configUpdates.reverse
        (reconcile (fun _ => configUpdates) configUpdates "Port 22\nPasswordAuthentication yes\n".toList) =
      reconcile (fun _ => configUpdates) configUpdates "Port 22\nPasswordAuthentication yes\n".toList :=
  reconcile_idempotent (fun _ => configUpdates) (fun _ => configUpdates) configUpdates
    configUpdates.reverse "Port 22\nPasswordAuthentication yes\n".toList
    (fun _ => List.Perm.refl _) (fun _ => List.Perm.refl _) (List.Perm.refl _)
    (List.reverse_perm _)

/-! ## The override-fragment rewrite -/

theorem replaceFrom_skip (old new : Str) (x rest : Str) :
    replaceFrom old new x.length (x ++ rest) = replaceFrom old new 0 rest := by
  induction x with
  | nil => rfl
  | cons a x ih =>
    cases rest with
    | nil => simpa [replaceFrom] using ih
    | cons b rest => simpa [replaceFrom] using ih

/-- At an occurrence of `old` the replacement is emitted and the scan resumes
after the occurrence. -/
theorem replaceFrom_match (old' new rest : Str) (p : Char) :
    replaceFrom (p :: old') new 0 (p :: old' ++ rest) =
      new ++ replaceFrom (p :: old') new 0 rest := by
  have h : HasPrefix (p :: (old' ++ rest)) (p :: old') = true := by
    rw [HasPrefix_iff]; exact ⟨rest, rfl⟩
  show replaceFrom (p :: old') new 0 (p :: (old' ++ rest)) = _
  rw [replaceFrom, if_pos h]
  simp only [List.length_cons, Nat.add_sub_cancel]
  rw [replaceFrom_skip]

theorem replaceFrom_nomatch (old new cs : Str) (c : Char)
    (h : HasPrefix (c :: cs) old = false) :
    replaceFrom old new 0 (c :: cs) = c :: replaceFrom old new 0 cs := by
  rw [replaceFrom]
  simp [h]

/-- A prefix of the output that holds no `hash` is a prefix of the input:
the replacement starts with `hash`. -/
theorem prefix_of_prefix_replace (old' tl : Str) (p hash : Char) (x s : Str)
    (hx : hash ∉ x)
    (h : x <+: replaceFrom (p :: old') (hash :: tl) 0 s) : x <+: s := by
  induction s generalizing x with
  | nil =>
    simp only [replaceFrom] at h
    rw [List.prefix_nil] at h
    subst h; exact List.nil_prefix
  | cons c cs ih =>
    cases x with
    | nil => exact List.nil_prefix
    | cons a x =>
      by_cases hm : HasPrefix (c :: cs) (p :: old') = true
      · exfalso
        rw [replaceFrom, if_pos hm] at h
        obtain ⟨t, ht⟩ := h
        simp only [List.cons_append, List.cons.injEq] at ht
        exact hx (by simp [ht.1])
      · rw [replaceFrom_nomatch _ _ _ _ (by simpa using hm)] at h
        obtain ⟨t, ht⟩ := h
        simp only [List.cons_append, List.cons.injEq] at ht
        have hx' : hash ∉ x := fun e => hx (List.mem_cons_of_mem _ e)
        have := ih x hx' ⟨t, ht.2⟩
        obtain ⟨t', ht'⟩ := this
        exact ⟨t', by simp [ht.1, ht']⟩

theorem allPreceded_cons (hash c : Char) (old s : Str) (h : AllPreceded hash old s)
    (h0 : ¬ old <+: c :: s) : AllPreceded hash old (c :: s) := by
  intro pre post hs
  cases pre with
  | nil => exact absurd ⟨post, by simpa using hs.symm⟩ h0
  | cons a pre =>
    simp only [List.cons_append, List.cons.injEq] at hs
    obtain ⟨pre', hpre⟩ := h pre post (by simpa using hs.2)
    exact ⟨a :: pre', by simp [hpre]⟩

theorem split_unique (p : Char) (x y pre c : Str) (hx : p ∉ x) (hy : p ∉ y)
    (h : x ++ p :: y = pre ++ p :: c) : pre = x := by
  induction x generalizing pre with
  | nil =>
    cases pre with
    | nil => rfl
    | cons a pre =>
      simp only [List.nil_append, List.cons_append, List.cons.injEq] at h
      exact absurd (by rw [h.2]; simp) hy
  | cons b x ih =>
    cases pre with
    | nil =>
      simp only [List.nil_append, List.cons_append, List.cons.injEq] at h
      exact absurd (by simp [h.1]) hx
    | cons a pre =>
      simp only [List.cons_append, List.cons.injEq] at h
      rw [h.1, ih pre (fun e => hx (List.mem_cons_of_mem _ e)) h.2]

/-- Prepending the replacement `hash :: old ++ tl` keeps every occurrence of
`old` preceded by `hash`, when `old` holds its first character only once and
neither `hash` nor `tl` holds it. -/
theorem allPreceded_replacement (hash p : Char) (old' tl s : Str)
    (hp : p ∉ old') (htl : p ∉ tl) (hhash : hash ≠ p)
    (h : AllPreceded hash (p :: old') s) :
    AllPreceded hash (p :: old') ((hash :: (p :: old') ++ tl) ++ s) := by
  intro pre post hs
  have hs' : (hash :: (p :: old') ++ tl) ++ s = pre ++ ((p :: old') ++ post) := by
    rw [hs]; simp
  rcases List.append_eq_append_iff.1 hs' with ⟨a', hpre, hrest⟩ | ⟨c', hR, hrest⟩
  · obtain ⟨pre', ha'⟩ := h a' post (by rw [hrest]; simp)
    exact ⟨(hash :: (p :: old') ++ tl) ++ pre', by rw [hpre, ha']; simp⟩
  · cases c' with
    | nil =>
      simp only [List.append_nil] at hR
      simp only [List.nil_append] at hrest
      obtain ⟨pre', ha'⟩ := h [] post (by rw [← hrest]; simp)
      simp at ha'
    | cons b c' =>
      have hb : b = p := by
        simp only [List.cons_append, List.cons.injEq] at hrest
        exact hrest.1.symm
      subst hb
      have hy : b ∉ old' ++ tl := by
        simp only [List.mem_append, not_or]; exact ⟨hp, htl⟩
      have := split_unique b [hash] (old' ++ tl) pre c'
        (by simpa using fun e => hhash e.symm) hy (by simpa using hR)
      exact ⟨[], by simp [this]⟩

/-- The output of the replacement holds `old` only right after `hash`. -/
theorem allPreceded_replace (hash p : Char) (old' tl : Str)
    (hp : p ∉ old') (htl : p ∉ tl) (hhash : hash ≠ p) (hold : hash ∉ old') (n : Nat) :
    ∀ s : Str, s.length ≤ n →
      AllPreceded hash (p :: old')
        (replaceFrom (p :: old') (hash :: (p :: old') ++ tl) 0 s) := by
  induction n with
  | zero =>
    intro s hs
    have : s = [] := List.length_eq_zero.1 (Nat.le_zero.1 hs)
    subst this
    intro pre post h
    simp only [replaceFrom] at h
    have := congrArg List.length h
    simp only [List.length_append, List.length_cons, List.length_nil] at this
    omega
  | succ n ih =>
    intro s hs
    cases s with
    | nil => exact ih [] (Nat.zero_le _)
    | cons c cs =>
      by_cases hm : HasPrefix (c :: cs) (p :: old') = true
      · obtain ⟨rest, hrest⟩ := (HasPrefix_iff _ _).1 hm
        rw [← hrest]
        have hlen : rest.length ≤ n := by
          have := congrArg List.length hrest
          simp only [List.length_append, List.length_cons] at this hs
          omega
        have e := replaceFrom_match old' (hash :: (p :: old') ++ tl) rest p
        simp only [List.cons_append] at e ⊢
        rw [e]
        have := allPreceded_replacement hash p old' tl _ hp htl hhash (ih rest hlen)
        simpa using this
      · have hm' : HasPrefix (c :: cs) (p :: old') = false := by simpa using hm
        rw [replaceFrom_nomatch _ _ _ _ hm']
        have hcs : cs.length ≤ n := by
          simp only [List.length_cons] at hs; omega
        apply allPreceded_cons _ _ _ _ (ih cs hcs)
        rintro ⟨t, ht⟩
        simp only [List.cons_append, List.cons.injEq] at ht
        have hpre : old' <+: replaceFrom (p :: old') (hash :: (p :: old') ++ tl) 0 cs :=
          ⟨t, ht.2⟩
        obtain ⟨t', ht'⟩ := prefix_of_prefix_replace old' ((p :: old') ++ tl) p hash old'
          cs hold (by simpa using hpre)
        apply hm
        rw [HasPrefix_iff]
        exact ⟨t', by simp [ht.1, ht']⟩

/-- C4: when an override fragment holds `PasswordAuthentication yes`, the
content written back holds that literal only immediately after a `#`. -/
theorem overrideRewrite_commented (fileContent : Str)
    (h : Contains fileContent insecureLiteral = true) :
    ∃ newContent, overrideRewrite fileContent = some newContent ∧
      ∀ pre post, newContent = pre ++ insecureLiteral ++ post →
        ∃ pre', pre = pre' ++ ['#'] := by
  refine ⟨Replace fileContent insecureLiteral commentedLiteral, by simp [overrideRewrite, h], ?_⟩
  have hold : insecureLiteral = 'P' :: "asswordAuthentication yes".toList := rfl
  have hnew : commentedLiteral =
      '#' :: ('P' :: "asswordAuthentication yes".toList) ++ " # 被 kick 工具禁用".toList := rfl
  have := allPreceded_replace '#' 'P' "asswordAuthentication yes".toList
    " # 被 kick 工具禁用".toList (by decide) (by decide) (by decide) (by decide)
    fileContent.length fileContent (Nat.le_refl _)
  rw [Replace, hold, hnew]
  exact this

/-- Witness of C4 on a fragment with an indented and a plain occurrence. -/
theorem overrideRewrite_commented_witness :
    ∃ newContent,
      overrideRewrite "  PasswordAuthentication yes\nPasswordAuthentication yes\n".toList
        = some newContent ∧
      ∀ pre post, newContent = pre ++ insecureLiteral ++ post →
        ∃ pre', pre = pre' ++ ['#'] :=
  overrideRewrite_commented "  PasswordAuthentication yes\nPasswordAuthentication yes\n".toList
    (by decide)

/-- C8 fails on the code: the text written by the first run still holds the
literal (inside the comment), so a second run rewrites the fragment again. -/
theorem neutralizeFragment_second_run_changes :
    Contains (neutralizeFragment "PasswordAuthentication yes\n".toList) insecureLiteral = true ∧
    neutralizeFragment "PasswordAuthentication yes\n".toList =
      "#PasswordAuthentication yes # 被 kick 工具禁用\n".toList ∧
    neutralizeFragment (neutralizeFragment "PasswordAuthentication yes\n".toList) =
      "##PasswordAuthentication yes # 被 kick 工具禁用 # 被 kick 工具禁用\n".toList ∧
    neutralizeFragment (neutralizeFragment "PasswordAuthentication yes\n".toList) ≠
      neutralizeFragment "PasswordAuthentication yes\n".toList := by
  decide

/-! ## `AddPublicKey` -/

theorem Contains_of_prefix (s sub : Str) (h : sub <+: s) : Contains s sub = true := by
  cases s with
  | nil => simpa [Contains, HasPrefix_iff] using h
  | cons c cs => simp [Contains, (HasPrefix_iff _ _).2 h]

theorem HasPrefix_eq_false {s pre : Str} (h : ¬ pre <+: s) : HasPrefix s pre = false := by
  cases hh : HasPrefix s pre with
  | false => rfl
  | true => exact absurd ((HasPrefix_iff _ _).1 hh) h

theorem countOccurrences_short (key t : Str) (hlen : t.length ≤ key.length) (hne : t ≠ key) :
    countOccurrences key t = 0 := by
  induction t with
  | nil =>
    have : ¬ key <+: [] := by
      rw [List.prefix_nil]; exact fun e => hne e.symm
    simp [countOccurrences, HasPrefix_eq_false this]
  | cons b t ih =>
    have h1 : ¬ key <+: b :: t := fun hp =>
      hne (List.IsPrefix.eq_of_length_le hp hlen).symm
    have h2 : t ≠ key := by
      intro e; rw [e] at hlen; simp at hlen
    have h3 : t.length ≤ key.length := by
      simp only [List.length_cons] at hlen; omega
    have h4 : HasPrefix (b :: t) key = false := HasPrefix_eq_false h1
    simp [countOccurrences, h4, ih h3 h2]

theorem countOccurrences_key_newline (key : Str) (hne : key ≠ []) (hnl : '\n' ∉ key) :
    countOccurrences key (key ++ ['\n']) = 1 := by
  obtain ⟨a, k, rfl⟩ := List.exists_cons_of_ne_nil hne
  have h1 : HasPrefix (a :: (k ++ ['\n'])) (a :: k) = true := by
    rw [HasPrefix_iff]; exact ⟨['\n'], rfl⟩
  have h2 : countOccurrences (a :: k) (k ++ ['\n']) = 0 := by
    apply countOccurrences_short
    · simp
    · intro e
      apply hnl
      rw [← e]; simp
  show countOccurrences (a :: k) (a :: (k ++ ['\n'])) = 1
  rw [countOccurrences, if_pos h1, h2]

theorem countOccurrences_append (key e rest : Str) (hnl : '\n' ∉ key)
    (hc : Contains e key = false) (hlast : ∀ x, e.getLast? = some x → x = '\n') :
    countOccurrences key (e ++ (key ++ rest)) = countOccurrences key (key ++ rest) := by
  induction e with
  | nil => rfl
  | cons a e ih =>
    have hc' : HasPrefix (a :: e) key = false ∧ Contains e key = false := by
      simpa [Contains] using hc
    have hlast' : ∀ x, e.getLast? = some x → x = '\n' := by
      intro x hx
      cases e with
      | nil => simp at hx
      | cons b e => exact hlast x (by rw [List.getLast?_cons_cons]; exact hx)
    have hno : HasPrefix (a :: (e ++ (key ++ rest))) key = false := by
      by_contra hp
      have hp : key <+: a :: (e ++ (key ++ rest)) := by
        rw [← HasPrefix_iff]; simpa using hp
      have hpe : a :: e <+: a :: (e ++ (key ++ rest)) := ⟨key ++ rest, rfl⟩
      rcases Nat.le_total key.length (a :: e).length with hle | hle
      · have := List.prefix_of_prefix_length_le hp hpe hle
        rw [← HasPrefix_iff] at this
        rw [this] at hc'
        exact Bool.noConfusion hc'.1
      · have hsub := (List.prefix_of_prefix_length_le hpe hp hle).subset
        obtain ⟨x, hx⟩ : ∃ x, (a :: e).getLast? = some x := by
          rw [List.getLast?_eq_getLast _ (List.cons_ne_nil a e)]
          exact ⟨_, rfl⟩
        have hxn := hlast x hx
        subst hxn
        exact hnl (hsub (List.mem_of_getLast?_eq_some hx))
    show countOccurrences key (a :: (e ++ (key ++ rest))) = _
    rw [countOccurrences, hno, ih hc'.2 hlast']
    simp

theorem getLast?_prepared (existingKeys : Str) :
    ∀ x, (if existingKeys ≠ [] ∧ HasSuffix existingKeys ['\n'] = false
        then existingKeys ++ ['\n'] else existingKeys).getLast? = some x → x = '\n' := by
  intro x hx
  split at hx
  · simpa using hx.symm
  · rename_i hcond
    by_cases hne : existingKeys = []
    · simp [hne] at hx
    · have hsuf : HasSuffix existingKeys ['\n'] = true := by
        by_contra hs
        exact hcond ⟨hne, by simpa using hs⟩
      simp only [HasSuffix, List.isSuffixOf_iff_suffix] at hsuf
      obtain ⟨t, ht⟩ := hsuf
      rw [← ht] at hx
      simpa using hx.symm

theorem Contains_append_newline (e key : Str) (hne : key ≠ []) (hnl : '\n' ∉ key)
    (hc : Contains e key = false) : Contains (e ++ ['\n']) key = false := by
  induction e with
  | nil =>
    obtain ⟨a, k, rfl⟩ := List.exists_cons_of_ne_nil hne
    have ha : a ≠ '\n' := fun e => hnl (by simp [e])
    simp [Contains, HasPrefix, List.isPrefixOf, ha]
  | cons a e ih =>
    have hc' : HasPrefix (a :: e) key = false ∧ Contains e key = false := by
      simpa [Contains] using hc
    have hno : HasPrefix (a :: (e ++ ['\n'])) key = false := by
      by_contra hp
      have hp : key <+: a :: (e ++ ['\n']) := by
        rw [← HasPrefix_iff]; simpa using hp
      have hpe : a :: e <+: a :: (e ++ ['\n']) := ⟨['\n'], rfl⟩
      rcases Nat.lt_or_ge (a :: e).length key.length with hlt | hle
      · have hlen : key.length = (a :: (e ++ ['\n'])).length := by
          have := hp.length_le
          simp only [List.length_cons, List.length_append, List.length_singleton,
            List.length_nil] at this hlt ⊢
          omega
        have := List.IsPrefix.eq_of_length hp hlen
        apply hnl
        rw [this]; simp
      · have := List.prefix_of_prefix_length_le hp hpe hle
        rw [← HasPrefix_iff] at this
        rw [this] at hc'
        exact Bool.noConfusion hc'.1
    show Contains (a :: (e ++ ['\n'])) key = false
    rw [Contains, hno, ih hc'.2]
    rfl

theorem Contains_append_of_prefix (x s sub : Str) (h : sub <+: s) :
    Contains (x ++ s) sub = true := by
  induction x with
  | nil => exact Contains_of_prefix s sub h
  | cons a x ih =>
    show Contains (a :: (x ++ s)) sub = true
    rw [Contains, ih]
    simp

/-- C5: starting from a store that does not hold the key, two calls of
`AddPublicKey` with a non-empty, newline-free key leave exactly one
occurrence of the key, and the second call writes nothing and leaves the
store as the first call wrote it. -/
theorem AddPublicKey_twice (store : Option Str) (publicKey : Str)
    (hne : publicKey ≠ []) (hnl : '\n' ∉ publicKey)
    (hc : Contains (storeContent store) publicKey = false) :
    (AddPublicKey store publicKey).wrote = true ∧
    (AddPublicKey (AddPublicKey store publicKey).store publicKey).wrote = false ∧
    (AddPublicKey (AddPublicKey store publicKey).store publicKey).store =
      (AddPublicKey store publicKey).store ∧
    ∃ content,
      (AddPublicKey (AddPublicKey store publicKey).store publicKey).store = some content ∧
      countOccurrences publicKey content = 1 := by
  obtain ⟨e, he, hce, hlast⟩ : ∃ e : Str,
      AddPublicKey store publicKey =
        { store := some (e ++ (publicKey ++ ['\n'])), wrote := true } ∧
      Contains e publicKey = false ∧ ∀ x, e.getLast? = some x → x = '\n' := by
    refine ⟨if storeContent store ≠ [] ∧ HasSuffix (storeContent store) ['\n'] = false
        then storeContent store ++ ['\n'] else storeContent store, ?_, ?_, ?_⟩
    · simp only [AddPublicKey, hc]
      rfl
    · split
      · exact Contains_append_newline _ _ hne hnl hc
      · exact hc
    · exact getLast?_prepared (storeContent store)
  have hcont : Contains (e ++ (publicKey ++ ['\n'])) publicKey = true :=
    Contains_append_of_prefix e _ _ ⟨['\n'], rfl⟩
  have hsecond : AddPublicKey (some (e ++ (publicKey ++ ['\n']))) publicKey =
      { store := some (e ++ (publicKey ++ ['\n'])), wrote := false } := by
    simp only [AddPublicKey, storeContent, hcont, if_true]
  rw [he]
  simp only [hsecond]
  refine ⟨trivial, trivial, trivial, _, rfl, ?_⟩
  rw [countOccurrences_append publicKey e ['\n'] hnl hce hlast,
    countOccurrences_key_newline publicKey hne hnl]

/-- Witness of C5 on a store whose last line lacks its newline. -/
theorem AddPublicKey_twice_witness :
    (AddPublicKey (some "ssh-rsa OLD".toList) "ssh-ed25519 NEW".toList).wrote = true ∧
    (AddPublicKey (AddPublicKey (some "ssh-rsa OLD".toList) "ssh-ed25519 NEW".toList).store
      "ssh-ed25519 NEW".toList).wrote = false ∧
    (AddPublicKey (AddPublicKey (some "ssh-rsa OLD".toList) "ssh-ed25519 NEW".toList).store
      "ssh-ed25519 NEW".toList).store =
      (AddPublicKey (some "ssh-rsa OLD".toList) "ssh-ed25519 NEW".toList).store ∧
    ∃ content,
      (AddPublicKey (AddPublicKey (some "ssh-rsa OLD".toList) "ssh-ed25519 NEW".toList).store
        "ssh-ed25519 NEW".toList).store = some content ∧
      countOccurrences "ssh-ed25519 NEW".toList content = 1 :=
  AddPublicKey_twice (some "ssh-rsa OLD".toList) "ssh-ed25519 NEW".toList
    (by decide) (by decide) (by decide)

/-! ## `RestartSSHService` -/

theorem restartArgvs_eq :
    restartArgvs =
      [ ["service".toList, "ssh".toList, "restart".toList],
        ["systemctl".toList, "restart".toList, "ssh".toList],
        ["systemctl".toList, "restart".toList, "sshd".toList],
        ["service".toList, "sshd".toList, "restart".toList] ] := by
  decide

theorem restartLoop_attempted (run : List Str → Option Str) (cmds : List Str)
    (lastErr : Option Str) :
    (restartLoop run cmds lastErr).attempted =
      (cmds.map (fun cmd => Split cmd ' ')).takeWhile (fun a => (run a).isSome) ++
      ((cmds.map (fun cmd => Split cmd ' ')).dropWhile (fun a => (run a).isSome)).take 1 := by
  induction cmds generalizing lastErr with
  | nil => cases lastErr <;> simp [restartLoop]
  | cons cmd rest ih =>
    cases h : run (Split cmd ' ') with
    | none => simp [restartLoop, h, List.takeWhile_cons, List.dropWhile_cons]
    | some e => simp [restartLoop, h, List.takeWhile_cons, List.dropWhile_cons, ih]

theorem restartLoop_err_none_iff (run : List Str → Option Str) (cmds : List Str)
    (lastErr : Option Str) :
    (restartLoop run cmds lastErr).err = none ↔
      ∃ a ∈ cmds.map (fun cmd => Split cmd ' '), run a = none := by
  induction cmds generalizing lastErr with
  | nil => cases lastErr <;> simp [restartLoop]
  | cons cmd rest ih =>
    cases h : run (Split cmd ' ') with
    | none => simp [restartLoop, h]
    | some e => simp [restartLoop, h, ih]

theorem restartLoop_cons_fail (run : List Str → Option Str) (cmd : Str) (rest : List Str)
    (lastErr : Option Str) (e : Str) (h : run (Split cmd ' ') = some e) :
    restartLoop run (cmd :: rest) lastErr =
      { attempted := Split cmd ' ' :: (restartLoop run rest (some e)).attempted,
        err := (restartLoop run rest (some e)).err } := by
  simp only [restartLoop, h]

theorem restartLoop_cons_ok (run : List Str → Option Str) (cmd : Str) (rest : List Str)
    (lastErr : Option Str) (h : run (Split cmd ' ') = none) :
    restartLoop run (cmd :: rest) lastErr = { attempted := [Split cmd ' '], err := none } := by
  simp only [restartLoop, h]

/-- C6: `RestartSSHService` runs the four candidates in the order of the
source, up to and including the first that succeeds and none after it; it
returns `nil` exactly when some candidate succeeds; when all four fail it
returns the error wrapping the failure of `service sshd restart`; and when
the first two fail and the third succeeds it returns `nil` after running
those three only. -/
theorem RestartSSHService_first_success (run : List Str → Option Str) :
    restartArgvs =
      [ ["service".toList, "ssh".toList, "restart".toList],
        ["systemctl".toList, "restart".toList, "ssh".toList],
        ["systemctl".toList, "restart".toList, "sshd".toList],
        ["service".toList, "sshd".toList, "restart".toList] ] ∧
    (RestartSSHService run).attempted =
      restartArgvs.takeWhile (fun a => (run a).isSome) ++
        (restartArgvs.dropWhile (fun a => (run a).isSome)).take 1 ∧
    ((RestartSSHService run).err = none ↔ ∃ a ∈ restartArgvs, run a = none) ∧
    (∀ e1 e2 e3 e4 : Str,
      run ["service".toList, "ssh".toList, "restart".toList] = some e1 →
      run ["systemctl".toList, "restart".toList, "ssh".toList] = some e2 →
      run ["systemctl".toList, "restart".toList, "sshd".toList] = some e3 →
      run ["service".toList, "sshd".toList, "restart".toList] = some e4 →
      (RestartSSHService run).err = some ("无法重启 SSH 服务: ".toList ++ e4)) ∧
    (∀ e1 e2 : Str,
      run ["service".toList, "ssh".toList, "restart".toList] = some e1 →
      run ["systemctl".toList, "restart".toList, "ssh".toList] = some e2 →
      run ["systemctl".toList, "restart".toList, "sshd".toList] = none →
      (RestartSSHService run).err = none ∧
      (RestartSSHService run).attempted =
        [ ["service".toList, "ssh".toList, "restart".toList],
          ["systemctl".toList, "restart".toList, "ssh".toList],
          ["systemctl".toList, "restart".toList, "sshd".toList] ]) := by
  have s1 : Split "service ssh restart".toList ' ' =
      ["service".toList, "ssh".toList, "restart".toList] := by decide
  have s2 : Split "systemctl restart ssh".toList ' ' =
      ["systemctl".toList, "restart".toList, "ssh".toList] := by decide
  have s3 : Split "systemctl restart sshd".toList ' ' =
      ["systemctl".toList, "restart".toList, "sshd".toList] := by decide
  have s4 : Split "service sshd restart".toList ' ' =
      ["service".toList, "sshd".toList, "restart".toList] := by decide
  refine ⟨restartArgvs_eq, restartLoop_attempted run restartCommands none,
    restartLoop_err_none_iff run restartCommands none, ?_, ?_⟩
  · intro e1 e2 e3 e4 h1 h2 h3 h4
    rw [← s1] at h1; rw [← s2] at h2; rw [← s3] at h3; rw [← s4] at h4
    rw [RestartSSHService, restartCommands, restartLoop_cons_fail run _ _ _ e1 h1,
      restartLoop_cons_fail run _ _ _ e2 h2, restartLoop_cons_fail run _ _ _ e3 h3,
      restartLoop_cons_fail run _ _ _ e4 h4]
    rfl
  · intro e1 e2 h1 h2 h3
    rw [← s1] at h1; rw [← s2] at h2; rw [← s3] at h3
    rw [RestartSSHService, restartCommands, restartLoop_cons_fail run _ _ _ e1 h1,
      restartLoop_cons_fail run _ _ _ e2 h2, restartLoop_cons_ok run _ _ _ h3, s1, s2, s3]
    exact ⟨rfl, rfl⟩

/-- Witness of C6 with a runner on which only `systemctl restart sshd`
succeeds. -/
theorem RestartSSHService_first_success_witness :
    (RestartSSHService (fun argv =>
        if argv = ["systemctl".toList, "restart".toList, "sshd".toList] then none
        else some "exit status 1".toList)).err = none ∧
    (RestartSSHService (fun argv =>
        if argv = ["systemctl".toList, "restart".toList, "sshd".toList] then none
        else some "exit status 1".toList)).attempted =
      [ ["service".toList, "ssh".toList, "restart".toList],
        ["systemctl".toList, "restart".toList, "ssh".toList],
        ["systemctl".toList, "restart".toList, "sshd".toList] ] :=
  (RestartSSHService_first_success (fun argv =>
      if argv = ["systemctl".toList, "restart".toList, "sshd".toList] then none
      else some "exit status 1".toList)).2.2.2.2
    "exit status 1".toList "exit status 1".toList (by decide) (by decide) (by decide)

/-! ## `SSHModel.Update` -/

theorem Update_enter (tiUpdate : TextInput → Msg → TextInput) (m : SSHModel)
    (hdone : m.done = false) (hfocus : m.textInput.focused = true) :
    SSHModel.Update tiUpdate m (.key .enter) =
      if (TrimSpace m.textInput.value).length > 0 then
        if (!HasPrefix (TrimSpace m.textInput.value) "ssh-rsa".toList &&
            !HasPrefix (TrimSpace m.textInput.value) "ssh-ed25519".toList &&
            !HasPrefix (TrimSpace m.textInput.value) "ecdsa-sha2-".toList) = true then
          ({ m with err := some "公钥格式不正确，应该以 ssh-rsa、ssh-ed25519 或 ecdsa-sha2- 开头".toList },
            .nil)
        else
          ({ m with done := true, status := "正在配置 SSH...".toList },
            .performSSHConfig (TrimSpace m.textInput.value))
      else ({ m with textInput := tiUpdate m.textInput (.key .enter) }, .textInput) := by
  unfold SSHModel.Update
  simp only [hdone, hfocus]
  rfl

/-- C7: with the prompt not done and the input focused, Enter sets `done` and
issues `performSSHConfig` with the trimmed key exactly when the trimmed input
is non-empty and starts with `ssh-rsa`, `ssh-ed25519` or `ecdsa-sha2-`;
otherwise `done` stays false and no configuration command is issued.  The
inputs `ssh-rsa AAAA...` and `  ssh-ed25519 AAAA  ` are accepted and
`not-a-key` is rejected. -/
theorem Update_enter_accepts_iff (tiUpdate : TextInput → Msg → TextInput) (m : SSHModel)
    (hdone : m.done = false) (hfocus : m.textInput.focused = true) :
    (((SSHModel.Update tiUpdate m (.key .enter)).1.done = true ∧
        (SSHModel.Update tiUpdate m (.key .enter)).2 =
          .performSSHConfig (TrimSpace m.textInput.value)) ↔
      (TrimSpace m.textInput.value ≠ [] ∧
        (HasPrefix (TrimSpace m.textInput.value) "ssh-rsa".toList = true ∨
         HasPrefix (TrimSpace m.textInput.value) "ssh-ed25519".toList = true ∨
         HasPrefix (TrimSpace m.textInput.value) "ecdsa-sha2-".toList = true))) ∧
    (¬ (TrimSpace m.textInput.value ≠ [] ∧
        (HasPrefix (TrimSpace m.textInput.value) "ssh-rsa".toList = true ∨
         HasPrefix (TrimSpace m.textInput.value) "ssh-ed25519".toList = true ∨
         HasPrefix (TrimSpace m.textInput.value) "ecdsa-sha2-".toList = true)) →
      (SSHModel.Update tiUpdate m (.key .enter)).1.done = false ∧
      ∀ publicKey, (SSHModel.Update tiUpdate m (.key .enter)).2 ≠
        .performSSHConfig publicKey) ∧
    (m.textInput.value = "ssh-rsa AAAA...".toList →
      (SSHModel.Update tiUpdate m (.key .enter)).1.done = true) ∧
    (m.textInput.value = "  ssh-ed25519 AAAA  ".toList →
      (SSHModel.Update tiUpdate m (.key .enter)).1.done = true ∧
      (SSHModel.Update tiUpdate m (.key .enter)).2 =
        .performSSHConfig "ssh-ed25519 AAAA".toList) ∧
    (m.textInput.value = "not-a-key".toList →
      (SSHModel.Update tiUpdate m (.key .enter)).1.done = false) := by
  have hU := Update_enter tiUpdate m hdone hfocus
  have key : ∀ v : Str, m.textInput.value = v →
      (((SSHModel.Update tiUpdate m (.key .enter)).1.done = true ∧
          (SSHModel.Update tiUpdate m (.key .enter)).2 = .performSSHConfig (TrimSpace v)) ↔
        (TrimSpace v ≠ [] ∧
          (HasPrefix (TrimSpace v) "ssh-rsa".toList = true ∨
           HasPrefix (TrimSpace v) "ssh-ed25519".toList = true ∨
           HasPrefix (TrimSpace v) "ecdsa-sha2-".toList = true))) ∧
      (¬ (TrimSpace v ≠ [] ∧
          (HasPrefix (TrimSpace v) "ssh-rsa".toList = true ∨
           HasPrefix (TrimSpace v) "ssh-ed25519".toList = true ∨
           HasPrefix (TrimSpace v) "ecdsa-sha2-".toList = true)) →
        (SSHModel.Update tiUpdate m (.key .enter)).1.done = false ∧
        ∀ publicKey, (SSHModel.Update tiUpdate m (.key .enter)).2 ≠
          .performSSHConfig publicKey) := by
    intro v hv
    rw [hU, hv]
    generalize TrimSpace v = k
    cases k with
    | nil => simp [hdone]
    | cons c k =>
      cases h1 : HasPrefix (c :: k) "ssh-rsa".toList <;>
      cases h2 : HasPrefix (c :: k) "ssh-ed25519".toList <;>
      cases h3 : HasPrefix (c :: k) "ecdsa-sha2-".toList <;>
      simp [hdone]
  refine ⟨(key _ rfl).1, (key _ rfl).2, ?_, ?_, ?_⟩
  · intro hv
    have h := (key _ hv).1
    have hacc : (SSHModel.Update tiUpdate m (.key .enter)).1.done = true ∧
        (SSHModel.Update tiUpdate m (.key .enter)).2 =
          .performSSHConfig (TrimSpace "ssh-rsa AAAA...".toList) := h.2 (by decide)
    exact hacc.1
  · intro hv
    have h := (key _ hv).1
    exact h.2 (by decide)
  · intro hv
    exact ((key _ hv).2 (by decide)).1

/-- Witness of C7 on the padded `ssh-ed25519` input. -/
theorem Update_enter_accepts_iff_witness :
    (SSHModel.Update (fun t _ => t)
      { textInput := { value := "  ssh-ed25519 AAAA  ".toList, focused := true },
        err := none, done := false, status := [], success := false }
      (.key .enter)).1.done = true ∧
    (SSHModel.Update (fun t _ => t)
      { textInput := { value := "  ssh-ed25519 AAAA  ".toList, focused := true },
        err := none, done := false, status := [], success := false }
      (.key .enter)).2 = .performSSHConfig "ssh-ed25519 AAAA".toList :=
  (Update_enter_accepts_iff (fun t _ => t)
    { textInput := { value := "  ssh-ed25519 AAAA  ".toList, focused := true },
      err := none, done := false, status := [], success := false } rfl rfl).2.2.2.1 rfl

end Kick
